import Mathlib

/-!
Verification of the Mooncake store benchmark client and master service
against its natural-language specification, via a shallow embedding of
the C++ sources in Lean.

Embedded sources:
* `MooncakeEngine` (bench client): `allocateSlices`, `exportSlices`,
  `freeSlices`, `Get` — src/unnamed/part_002.
* master `main` (RPC handler registration, thread-pool size) —
  src/unnamed/part_000.
* `MasterService::PutStart` parameter validation — master_service.cpp
  (embedded in src/scripts/build_wheel.sh).
* `Benchmark::Run` work partitioning — src/mooncake-store/bench/benchmark.cpp.
* `calculate_percentiles` — src/unnamed/part_001.
-/

namespace Mooncake

/-- `kMaxSliceSize` from the store's `types.h` (64 KiB), the maximum size of
a single slice; referenced by `allocateSlices` and `PutStart`. -/
def kMaxSliceSize : Nat := 65536

/-- A byte. Object values are byte strings, modelled as `List Nat`. -/
abbrev Byte := Nat

/-- A client-side slice: a pointer to an allocated client buffer (modelled
by the allocation id), the bytes stored in that buffer, and its size.
Mirrors `mooncake::Slice {void *ptr; size_t size}` together with the
contents `memcpy` put behind `ptr`. -/
structure Slice where
  ptr : Nat
  data : List Byte
  size : Nat
  deriving Repr, DecidableEq

/-- Modelled from the spec: the client buffer allocator
(`SimpleAllocator`, from `allocator.h`, which is not under src/).  Only
its boundary behaviour is modelled: `allocate(size)` either fails
(returns null) or hands out a fresh buffer of the requested size, and
`deallocate(ptr, size)` returns that buffer.  Whether each successive
`allocate` call succeeds is an arbitrary oracle (`plan`; exhausted plan
means success), and `live` is the multiset of currently outstanding
`(ptr, size)` allocations. -/
structure SimpleAllocator where
  plan : List Bool
  nextId : Nat
  live : Multiset (Nat × Nat)
  deriving DecidableEq

/-- `SimpleAllocator::allocate(size)`: returns `none` (null) when the
oracle says the call fails, otherwise a fresh pointer id, recording the
block as live. -/
def SimpleAllocator.allocate (a : SimpleAllocator) (size : Nat) :
    Option Nat × SimpleAllocator :=
  if a.plan.headD true then
    (some a.nextId,
     { plan := a.plan.tail, nextId := a.nextId + 1,
       live := (a.nextId, size) ::ₘ a.live })
  else
    (none, { a with plan := a.plan.tail })

/-- `SimpleAllocator::deallocate(ptr, size)`: removes one live block. -/
def SimpleAllocator.deallocate (a : SimpleAllocator) (ptr size : Nat) :
    SimpleAllocator :=
  { a with live := a.live.erase (ptr, size) }

/-- The `(ptr, size)` blocks backing a list of slices, as a multiset. -/
def blocksOf (slices : List Slice) : Multiset (Nat × Nat) :=
  (slices.map fun s => (s.ptr, s.size) : List (Nat × Nat))

/-- `MooncakeEngine::freeSlices` (src/unnamed/part_002:216-221):
deallocates every slice's buffer. -/
def freeSlices (a : SimpleAllocator) (slices : List Slice) : SimpleAllocator :=
  slices.foldl (fun ac s => ac.deallocate s.ptr s.size) a

/-- The loop of `MooncakeEngine::allocateSlices(slices, value)`
(src/unnamed/part_002:166-187).  `rest` is the still-unprocessed suffix
of `value` (the C++ loop tracks the same thing as `value` plus `offset`;
`rest = value.drop offset`), `slices` the accumulator.  Each round takes
a chunk of `min(rest.length, kMaxSliceSize)` bytes, allocates a client
buffer for it, `memcpy`s the chunk in, and appends the slice; a null
allocation deallocates every accumulated slice, clears the vector and
returns 1.  Returns the C++ return code, the final `slices` vector and
the final allocator state.  `fuel` only bounds the number of loop
rounds so the recursion is structural; every round consumes at least
one byte of `rest`, so any `fuel ≥ rest.length` (the top-level call
passes `value.length`) makes the `fuel = 0` branch unreachable. -/
def allocateSlicesGo : Nat → SimpleAllocator → List Byte → List Slice →
    Nat × List Slice × SimpleAllocator
  | _, a, [], slices => (0, slices, a)
  | 0, a, _ :: _, slices => (0, slices, a)
  | fuel + 1, a, rest@(_ :: _), slices =>
    let chunk_size := min rest.length kMaxSliceSize
    match a.allocate chunk_size with
    | (none, a') =>
        (1, [], freeSlices a' slices)
    | (some ptr, a') =>
        allocateSlicesGo fuel a' (rest.drop chunk_size)
          (slices ++ [{ ptr := ptr, data := rest.take chunk_size,
                        size := chunk_size }])

/-- `MooncakeEngine::allocateSlices(slices, value)` as called by `put`
and `Put` (src/unnamed/part_002:239-254): the slice vector starts
empty. -/
def allocateSlices (a : SimpleAllocator) (value : List Byte) :
    Nat × List Slice × SimpleAllocator :=
  allocateSlicesGo value.length a value []

/-- `MooncakeEngine::exportSlices` (src/unnamed/part_002:206-214):
concatenates the slices' bytes in order. -/
def exportSlices (slices : List Slice) : List Byte :=
  (slices.map Slice.data).flatten

lemma freeSlices_live (slices : List Slice) :
    ∀ a : SimpleAllocator, (freeSlices a slices).live = a.live - blocksOf slices := by
  induction slices with
  | nil => intro a; simp [freeSlices, blocksOf]
  | cons s rest ih =>
      intro a
      have hb : blocksOf (s :: rest) = (s.ptr, s.size) ::ₘ blocksOf rest := by
        simp [blocksOf]
      rw [hb, Multiset.sub_cons]
      simpa [freeSlices, SimpleAllocator.deallocate] using
        ih { a with live := a.live.erase (s.ptr, s.size) }

lemma blocksOf_append_single (l : List Slice) (s : Slice) :
    blocksOf (l ++ [s]) = (s.ptr, s.size) ::ₘ blocksOf l := by
  simp [blocksOf]

lemma exportSlices_append_single (l : List Slice) (s : Slice) :
    exportSlices (l ++ [s]) = exportSlices l ++ s.data := by
  simp [exportSlices]

lemma cons_sub_cons (b : Nat × Nat) (m n : Multiset (Nat × Nat)) :
    (b ::ₘ m) - (b ::ₘ n) = m - n := by
  rw [Multiset.sub_cons, Multiset.erase_cons_head]

/-- Main invariant of the value-chunking `allocateSlices` loop, proved by
induction on the loop: for any starting allocator and accumulator, when
the loop returns 0 the accumulated slice sizes have grown by exactly the
number of processed bytes and the concatenated slice bytes have grown by
exactly the processed bytes; every slice added has size at most
`kMaxSliceSize`; and when the loop returns 1 the slice vector is empty
and every block allocated by the loop has been returned to the
allocator. -/
lemma allocateSlicesGo_spec (fuel : Nat) :
    ∀ (a : SimpleAllocator) (rest : List Byte) (slices : List Slice),
    rest.length ≤ fuel →
    ((allocateSlicesGo fuel a rest slices).1 = 0 →
        ((allocateSlicesGo fuel a rest slices).2.1.map Slice.size).sum =
          (slices.map Slice.size).sum + rest.length ∧
        exportSlices (allocateSlicesGo fuel a rest slices).2.1 =
          exportSlices slices ++ rest) ∧
    (∀ s ∈ (allocateSlicesGo fuel a rest slices).2.1,
        s ∈ slices ∨ s.size ≤ kMaxSliceSize) ∧
    ((allocateSlicesGo fuel a rest slices).1 = 1 →
        (allocateSlicesGo fuel a rest slices).2.1 = [] ∧
        (allocateSlicesGo fuel a rest slices).2.2.live =
          a.live - blocksOf slices) := by
  induction fuel with
  | zero =>
      intro a rest slices hfuel
      have hrest : rest = [] := List.eq_nil_of_length_eq_zero (Nat.le_zero.mp hfuel)
      subst hrest
      refine ⟨fun _ => ⟨by simp [allocateSlicesGo], by simp [allocateSlicesGo]⟩,
        fun s hs => Or.inl (by simpa [allocateSlicesGo] using hs),
        fun h => by simp [allocateSlicesGo] at h⟩
  | succ fuel ih =>
      intro a rest slices hfuel
      match rest with
      | [] =>
          refine ⟨fun _ => ⟨by simp [allocateSlicesGo], by simp [allocateSlicesGo]⟩,
            fun s hs => Or.inl (by simpa [allocateSlicesGo] using hs),
            fun h => by simp [allocateSlicesGo] at h⟩
      | x :: xs =>
          have hcpos : 0 < min (x :: xs).length kMaxSliceSize := by
            refine lt_min ?_ ?_
            · simp
            · decide
          have hcle : min (x :: xs).length kMaxSliceSize ≤ (x :: xs).length :=
            Nat.min_le_left _ _
          have hckm : min (x :: xs).length kMaxSliceSize ≤ kMaxSliceSize :=
            Nat.min_le_right _ _
          by_cases hplan : a.plan.head?.getD true = true
          · -- allocation succeeds
            have halloc : a.allocate (min (x :: xs).length kMaxSliceSize) =
                (some a.nextId,
                 { plan := a.plan.tail, nextId := a.nextId + 1,
                   live := (a.nextId, min (x :: xs).length kMaxSliceSize) ::ₘ a.live }) := by
              simp [SimpleAllocator.allocate, hplan]
            have hgo : allocateSlicesGo (fuel + 1) a (x :: xs) slices =
                allocateSlicesGo fuel
                  { plan := a.plan.tail, nextId := a.nextId + 1,
                    live := (a.nextId, min (x :: xs).length kMaxSliceSize) ::ₘ a.live }
                  ((x :: xs).drop (min (x :: xs).length kMaxSliceSize))
                  (slices ++ [{ ptr := a.nextId,
                                data := (x :: xs).take (min (x :: xs).length kMaxSliceSize),
                                size := min (x :: xs).length kMaxSliceSize }]) := by
              simp only [allocateSlicesGo]
              rw [halloc]
            have hfuel' : ((x :: xs).drop (min (x :: xs).length kMaxSliceSize)).length ≤ fuel := by
              simp only [List.length_drop]
              simp only [List.length_cons] at hfuel ⊢
              omega
            obtain ⟨ihz, ihb, iho⟩ := ih _ ((x :: xs).drop (min (x :: xs).length kMaxSliceSize))
              (slices ++ [{ ptr := a.nextId,
                            data := (x :: xs).take (min (x :: xs).length kMaxSliceSize),
                            size := min (x :: xs).length kMaxSliceSize }])
              hfuel'
            rw [hgo]
            refine ⟨fun h0 => ?_, fun s hs => ?_, fun h1 => ?_⟩
            · obtain ⟨hsum, hexp⟩ := ihz h0
              constructor
              · rw [hsum]
                simp only [List.map_append, List.sum_append, List.length_drop,
                  List.map_cons, List.map_nil, List.sum_cons, List.sum_nil]
                simp only [List.length_cons] at hcle ⊢
                omega
              · rw [hexp, exportSlices_append_single]
                simp only [List.append_assoc]
                rw [List.take_append_drop]
            · rcases ihb s hs with h | h
              · rcases List.mem_append.mp h with h' | h'
                · exact Or.inl h'
                · right
                  rw [List.mem_singleton] at h'
                  rw [h']
                  exact hckm
              · exact Or.inr h
            · obtain ⟨hnil, hlive⟩ := iho h1
              refine ⟨hnil, ?_⟩
              rw [hlive, blocksOf_append_single]
              exact cons_sub_cons _ _ _
          · -- allocation fails
            have halloc : a.allocate (min (x :: xs).length kMaxSliceSize) =
                (none, { a with plan := a.plan.tail }) := by
              simp only [Bool.not_eq_true] at hplan
              simp [SimpleAllocator.allocate, hplan]
            have hgo : allocateSlicesGo (fuel + 1) a (x :: xs) slices =
                (1, [], freeSlices { a with plan := a.plan.tail } slices) := by
              simp only [allocateSlicesGo]
              rw [halloc]
            rw [hgo]
            refine ⟨fun h0 => by simp at h0, fun s hs => by simp at hs, fun _ => ?_⟩
            exact ⟨rfl, by rw [freeSlices_live]⟩

/-- The three-part loop invariant specialised to the real call
`allocateSlices(slices, value)` with an empty initial vector. -/
lemma allocateSlices_spec (a : SimpleAllocator) (value : List Byte) :
    ((allocateSlices a value).1 = 0 →
        ((allocateSlices a value).2.1.map Slice.size).sum = value.length ∧
        exportSlices (allocateSlices a value).2.1 = value) ∧
    (∀ s ∈ (allocateSlices a value).2.1, s.size ≤ kMaxSliceSize) ∧
    ((allocateSlices a value).1 = 1 →
        (allocateSlices a value).2.1 = [] ∧
        (allocateSlices a value).2.2.live = a.live) := by
  obtain ⟨hz, hb, ho⟩ :=
    allocateSlicesGo_spec value.length a value [] (le_refl _)
  unfold allocateSlices
  refine ⟨fun h0 => ?_, fun s hs => ?_, fun h1 => ?_⟩
  · obtain ⟨hsum, hexp⟩ := hz h0
    refine ⟨by simpa using hsum, ?_⟩
    simpa [exportSlices] using hexp
  · rcases hb s hs with h | h
    · simp at h
    · exact h
  · obtain ⟨hnil, hlive⟩ := ho h1
    refine ⟨hnil, ?_⟩
    rw [hlive]
    simp [blocksOf]

end Mooncake

namespace Mooncake

/-- C1: if `MooncakeEngine::allocateSlices(slices, value)` returns 0 on a
non-empty `value`, the produced slice sequence is non-empty and the sum
of its slice sizes equals `value.size()`, so the handle sizes backing
the stored object's replica sum exactly to the object's size. -/
theorem allocateSlices_success_sizes (a : SimpleAllocator) (value : List Byte)
    (hne : value ≠ []) (h0 : (allocateSlices a value).1 = 0) :
    (allocateSlices a value).2.1 ≠ [] ∧
    ((allocateSlices a value).2.1.map Slice.size).sum = value.length := by
  obtain ⟨hsum, _⟩ := (allocateSlices_spec a value).1 h0
  refine ⟨fun hnil => ?_, hsum⟩
  rw [hnil] at hsum
  simp at hsum
  exact hne (List.eq_nil_of_length_eq_zero hsum.symm)

theorem allocateSlices_success_sizes_witness :
    ((Mooncake.allocateSlices ⟨[], 0, 0⟩ [10, 20, 30]).1 = 0) ∧
    ((Mooncake.allocateSlices ⟨[], 0, 0⟩ [10, 20, 30]).2.1 ≠ [] ∧
      (((Mooncake.allocateSlices ⟨[], 0, 0⟩ [10, 20, 30]).2.1.map
          Slice.size).sum = ([10, 20, 30] : List Byte).length)) :=
  ⟨by decide, allocateSlices_success_sizes ⟨[], 0, 0⟩ [10, 20, 30]
      (by decide) (by decide)⟩

/-- C2: when allocation succeeds, chunking `value` with
`allocateSlices` and concatenating the resulting slices' bytes in order
(as `exportSlices` and the append loop in `Get` do) reproduces exactly
the original value, whose length equals the sum of the slice sizes. -/
theorem allocateSlices_roundtrip (a : SimpleAllocator) (value : List Byte)
    (h0 : (allocateSlices a value).1 = 0) :
    exportSlices (allocateSlices a value).2.1 = value ∧
    (exportSlices (allocateSlices a value).2.1).length =
      ((allocateSlices a value).2.1.map Slice.size).sum := by
  obtain ⟨hsum, hexp⟩ := (allocateSlices_spec a value).1 h0
  exact ⟨hexp, by rw [hexp, hsum]⟩

theorem allocateSlices_roundtrip_witness :
    ((Mooncake.allocateSlices ⟨[], 0, 0⟩ [7, 8, 9, 10]).1 = 0) ∧
    (exportSlices (Mooncake.allocateSlices ⟨[], 0, 0⟩ [7, 8, 9, 10]).2.1 =
        [7, 8, 9, 10] ∧
      (exportSlices (Mooncake.allocateSlices ⟨[], 0, 0⟩ [7, 8, 9, 10]).2.1).length =
        (((Mooncake.allocateSlices ⟨[], 0, 0⟩ [7, 8, 9, 10]).2.1.map
            Slice.size).sum)) :=
  ⟨by decide, allocateSlices_roundtrip ⟨[], 0, 0⟩ [7, 8, 9, 10] (by decide)⟩

/-- C3: when `allocateSlices(slices, value)` fails with return value 1
because a client-buffer allocation returned null, every slice allocated
earlier in the same call has been deallocated (the allocator's live
blocks are exactly those before the call) and the output slice vector
is empty. -/
theorem allocateSlices_failure_no_leak (a : SimpleAllocator)
    (value : List Byte) (h1 : (allocateSlices a value).1 = 1) :
    (allocateSlices a value).2.1 = [] ∧
    (allocateSlices a value).2.2.live = a.live :=
  (allocateSlices_spec a value).2.2 h1

/-- The parameter validation prefix of `MasterService::PutStart`
(master_service.cpp, embedded in src/scripts/build_wheel.sh, lines
437-466): rejects `replica_num == 0`, `value_length == 0`, an empty
key, any `slice_length > kMaxSliceSize`, and a slice-length total (a
`uint64_t`, hence reduced mod `2^64`) different from `value_length`.
Returns `true` iff validation passes. -/
def putStartValidate (keyLen replica_num value_length : Nat)
    (slice_lengths : List Nat) : Bool :=
  if replica_num = 0 || value_length = 0 || keyLen = 0 then false
  else if slice_lengths.any fun l => decide (l > kMaxSliceSize) then false
  else if (slice_lengths.foldl (fun t l => (t + l) % 2 ^ 64) 0) ≠ value_length
    then false
  else true

/-- The loop of the Get-path overload
`MooncakeEngine::allocateSlices(slices, object_info, length)`
(src/unnamed/part_002:189-204) over the handles of replica 0: per
handle, `assert(chunk_size <= kMaxSliceSize)` (the last component
records whether every assertion so far held), allocate a client buffer
of the handle's size and add it to `length`; a null allocation returns
1 immediately. -/
def allocateSlicesFromInfoGo : SimpleAllocator → List Nat → List Slice →
    Nat → Bool → Int × List Slice × SimpleAllocator × Nat × Bool
  | a, [], slices, len, assertOk => (0, slices, a, len, assertOk)
  | a, chunk :: hs, slices, len, assertOk =>
    let assertOk' := assertOk && decide (chunk ≤ kMaxSliceSize)
    match a.allocate chunk with
    | (none, a') => (1, slices, a', len, assertOk')
    | (some ptr, a') =>
        allocateSlicesFromInfoGo a' hs
          (slices ++ [{ ptr := ptr, data := List.replicate chunk 0,
                        size := chunk }])
          (len + chunk) assertOk'

/-- `MooncakeEngine::allocateSlices(slices, object_info, length)`
(src/unnamed/part_002:189-204): `length` starts at 0; an empty
`replica_list` returns -1; otherwise the loop above runs over the
handle sizes of replica 0. -/
def allocateSlicesFromInfo (a : SimpleAllocator) (replicaCount : Nat)
    (handleSizes : List Nat) : Int × List Slice × SimpleAllocator × Nat × Bool :=
  if replicaCount = 0 then (-1, [], a, 0, true)
  else allocateSlicesFromInfoGo a handleSizes [] 0 true

lemma allocateSlicesFromInfoGo_assertOk (handleSizes : List Nat)
    (hbound : ∀ l ∈ handleSizes, l ≤ kMaxSliceSize) :
    ∀ (a : SimpleAllocator) (slices : List Slice) (len : Nat),
    (allocateSlicesFromInfoGo a handleSizes slices len true).2.2.2.2 = true := by
  induction handleSizes with
  | nil => intro a slices len; rfl
  | cons chunk hs ih =>
      intro a slices len
      have hchunk : chunk ≤ kMaxSliceSize := hbound chunk (by simp)
      have hrest : ∀ l ∈ hs, l ≤ kMaxSliceSize :=
        fun l hl => hbound l (by simp [hl])
      by_cases hplan : a.plan.head?.getD true = true
      · have halloc : a.allocate chunk =
            (some a.nextId,
             { plan := a.plan.tail, nextId := a.nextId + 1,
               live := (a.nextId, chunk) ::ₘ a.live }) := by
          simp [SimpleAllocator.allocate, hplan]
        simp only [allocateSlicesFromInfoGo, halloc, hchunk, decide_eq_true_eq,
          Bool.true_and, decide_eq_true hchunk]
        exact ih hrest _ _ _
      · have halloc : a.allocate chunk = (none, { a with plan := a.plan.tail }) := by
          simp only [Bool.not_eq_true] at hplan
          simp [SimpleAllocator.allocate, hplan]
        simp only [allocateSlicesFromInfoGo, halloc, Bool.true_and]
        exact decide_eq_true hchunk

lemma putStartValidate_slice_bound (keyLen replica_num value_length : Nat)
    (slice_lengths : List Nat)
    (hval : putStartValidate keyLen replica_num value_length slice_lengths = true) :
    ∀ l ∈ slice_lengths, l ≤ kMaxSliceSize := by
  intro l hl
  by_contra hgt
  have : slice_lengths.any (fun l => decide (l > kMaxSliceSize)) = true :=
    List.any_eq_true.mpr ⟨l, hl, by simpa using Nat.lt_of_not_le hgt⟩
  simp [putStartValidate, this] at hval

/-- C4: every slice produced by the value-chunking `allocateSlices` has
size at most `kMaxSliceSize` (each chunk is
`min(value.size() - offset, kMaxSliceSize)`), so a client Put never
submits a slice length that `PutStart` would reject as oversized; and
for any slice lengths accepted by `PutStart`'s validation — hence for
the handle sizes of any stored object — every length is at most
`kMaxSliceSize` and the `assert(chunk_size <= kMaxSliceSize)` in the
Get-path `allocateSlices` holds at every handle. -/
theorem allocateSlices_sizes_bounded (a a2 : SimpleAllocator)
    (value : List Byte) (keyLen replica_num value_length : Nat)
    (slice_lengths : List Nat)
    (hval : putStartValidate keyLen replica_num value_length slice_lengths = true) :
    (∀ s ∈ (allocateSlices a value).2.1, s.size ≤ kMaxSliceSize) ∧
    (∀ l ∈ slice_lengths, l ≤ kMaxSliceSize) ∧
    (allocateSlicesFromInfo a2 1 slice_lengths).2.2.2.2 = true := by
  have hb := putStartValidate_slice_bound _ _ _ _ hval
  refine ⟨(allocateSlices_spec a value).2.1, hb, ?_⟩
  unfold allocateSlicesFromInfo
  simp only [if_neg (by omega : ¬(1 : Nat) = 0)]
  exact allocateSlicesFromInfoGo_assertOk _ hb _ _ _

theorem allocateSlices_sizes_bounded_witness :
    (putStartValidate 3 1 1024 [512, 512] = true) ∧
    ((∀ s ∈ (Mooncake.allocateSlices ⟨[], 0, 0⟩ [1, 2]).2.1,
        s.size ≤ kMaxSliceSize) ∧
      (∀ l ∈ ([512, 512] : List Nat), l ≤ kMaxSliceSize) ∧
      (allocateSlicesFromInfo ⟨[], 0, 0⟩ 1 [512, 512]).2.2.2.2 = true) :=
  ⟨by decide, allocateSlices_sizes_bounded ⟨[], 0, 0⟩ ⟨[], 0, 0⟩ [1, 2]
      3 1 1024 [512, 512] (by decide)⟩

theorem allocateSlices_failure_no_leak_witness :
    ((Mooncake.allocateSlices ⟨[false], 5, {(9, 4)}⟩ [1, 2, 3]).1 = 1) ∧
    ((Mooncake.allocateSlices ⟨[false], 5, {(9, 4)}⟩ [1, 2, 3]).2.1 = [] ∧
      (Mooncake.allocateSlices ⟨[false], 5, {(9, 4)}⟩ [1, 2, 3]).2.2.live =
        {(9, 4)}) :=
  ⟨by decide, allocateSlices_failure_no_leak _ _ (by decide)⟩

/-- The RPC handlers registered by the master's `main`
(src/unnamed/part_000:44-61), in registration order: one
`server.register_handler<&WrappedMasterService::X>` call per entry. -/
def registeredHandlers : List String :=
  ["ExistKey", "GetReplicaList", "PutStart", "PutEnd", "PutRevoke",
   "Remove", "RemoveAll", "MountSegment", "UnmountSegment"]

/-- Modelled from the spec: the request surface named by the
specification ("`MountSegment`, `ReMountSegment`, `UnmountSegment`,
`PutStart/PutEnd/PutRevoke`, `Get/ExistKey`, `Remove/RemoveAll`,
`Ping`, their batch forms"); `Get` is served by `GetReplicaList`, and
the batch forms are the `Batch`-prefixed variants of the key
operations. -/
def specRequestSurface : List String :=
  ["MountSegment", "ReMountSegment", "UnmountSegment", "PutStart",
   "PutEnd", "PutRevoke", "GetReplicaList", "ExistKey", "Remove",
   "RemoveAll", "Ping", "BatchExistKey", "BatchGetReplicaList",
   "BatchPutStart", "BatchPutEnd", "BatchPutRevoke"]

/-- C5 counterexample: the claim that `main` registers a handler for
every operation of the specified request surface fails: the surface
contains `ReMountSegment`, `Ping` and the batch forms (e.g.
`BatchPutStart`), but `main` registers no handler for any of them. -/
theorem registeredHandlers_incomplete :
    "ReMountSegment" ∈ specRequestSurface ∧
    "Ping" ∈ specRequestSurface ∧
    "BatchPutStart" ∈ specRequestSurface ∧
    "ReMountSegment" ∉ registeredHandlers ∧
    "Ping" ∉ registeredHandlers ∧
    "BatchPutStart" ∉ registeredHandlers := by
  decide

/-- C5 (amended): `main` registers exactly one handler for each of
`ExistKey`, `GetReplicaList`, `PutStart`, `PutEnd`, `PutRevoke`,
`Remove`, `RemoveAll`, `MountSegment`, `UnmountSegment` — each RPC
mapping 1:1 to the core operation of the same name — and an operation
of the specified surface has a registered handler iff it is not
`ReMountSegment`, `Ping`, or a batch form. -/
theorem registeredHandlers_exact :
    registeredHandlers.Nodup ∧
    (∀ op ∈ specRequestSurface,
      op ∈ registeredHandlers ↔
        (op ≠ "ReMountSegment" ∧ op ≠ "Ping" ∧
         op ≠ "BatchExistKey" ∧ op ≠ "BatchGetReplicaList" ∧
         op ≠ "BatchPutStart" ∧ op ≠ "BatchPutEnd" ∧
         op ≠ "BatchPutRevoke")) := by
  decide

/-- The command-line configuration consumed by the master's `main`
(src/unnamed/part_000:14-33): gflags `port` and `max_threads` (C++
`int32`) and the machine's `std::thread::hardware_concurrency()` cast
to `int`. -/
structure MasterFlags where
  port : Int
  maxThreads : Int
  hwConcurrency : Int

/-- The `coro_rpc_server` constructor arguments computed by `main`
(src/unnamed/part_000:29-33): thread count and listen port. -/
structure ServerInit where
  threads : Int
  port : Int

/-- `main`'s construction of the RPC server
(src/unnamed/part_000:29-33): `coro_rpc_server server(
std::min(FLAGS_max_threads, (int)hardware_concurrency()), FLAGS_port)`. -/
def masterServerInit (f : MasterFlags) : ServerInit :=
  { threads := min f.maxThreads f.hwConcurrency, port := f.port }

/-- C6: at startup the master creates its request-handler pool with
exactly `min(max_threads, hardware_concurrency)` threads and listens
on the configured port. -/
theorem masterServerInit_threads (f : MasterFlags) :
    (masterServerInit f).threads = min f.maxThreads f.hwConcurrency ∧
    (masterServerInit f).port = f.port :=
  ⟨rfl, rfl⟩

/-- Modelled from the spec: `ObjectMetadata::GrantLease` (declared in
master_service.h, which is not under src/; only its call sites in
master_service.cpp are): "`GrantLease(ttl)` sets `lease_timeout` to
`max(lease_timeout, now + ttl)`".  Monotonic-clock time points and the
ttl are modelled as naturals. -/
def GrantLease (lease_timeout now ttl : Nat) : Nat :=
  max lease_timeout (now + ttl)

/-- C7: `GrantLease(ttl)` sets `lease_timeout` to
`max(lease_timeout, now + ttl)`; it never decreases `lease_timeout`,
so across two successive `GrantLease` calls on the same object the
lease timeout is non-decreasing. -/
theorem grantLease_monotone (lease_timeout now ttl : Nat) :
    GrantLease lease_timeout now ttl = max lease_timeout (now + ttl) ∧
    lease_timeout ≤ GrantLease lease_timeout now ttl ∧
    ∀ now2 ttl2, GrantLease lease_timeout now ttl ≤
      GrantLease (GrantLease lease_timeout now ttl) now2 ttl2 :=
  ⟨rfl, le_max_left _ _, fun _ _ => le_max_left _ _⟩

/-- The effects `MooncakeEngine::Get` can have on the external store:
a metadata `Query` and a data-plane `Get`, in issue order. -/
inductive StoreEvent
  | query
  | clientGet
  deriving Repr, DecidableEq

/-- The environment `MooncakeEngine::Get` runs against: whether
`client_` is initialised (`Init` was called), the outcome of
`client_->Query` (`queryOk`, with the replica count and replica 0's
handle sizes of the returned `ObjectInfo`), and whether `client_->Get`
succeeds. -/
structure GetEnv where
  clientInit : Bool
  queryOk : Bool
  replicaCount : Nat
  handleSizes : List Nat
  getOk : Bool

/-- `MooncakeEngine::Get(key, value)` (src/unnamed/part_002:282-316).
`valueIsNull` models `value == nullptr`.  Returns the C++ `bool`
result, the bytes written into `*value` (if any), the store calls
issued, and the final client-buffer allocator state.  Mirrors the
source: null `value` and uninitialised `client_` return `false`
before any store call; a failed `Query` returns `false`; a nonzero
Get-path `allocateSlices` returns `false` (without freeing); a failed
`client_->Get` frees the slices and returns `false`; otherwise the
slices' bytes are appended into `*value`, the slices freed, and `true`
returned. -/
def engineGet (valueIsNull : Bool) (env : GetEnv) (a : SimpleAllocator) :
    Bool × Option (List Byte) × List StoreEvent × SimpleAllocator :=
  if valueIsNull then (false, none, [], a)
  else if !env.clientInit then (false, none, [], a)
  else if !env.queryOk then (false, none, [StoreEvent.query], a)
  else
    match allocateSlicesFromInfo a env.replicaCount env.handleSizes with
    | (ret, slices, a', _, _) =>
      if ret ≠ 0 then (false, none, [StoreEvent.query], a')
      else if !env.getOk then
        (false, none, [StoreEvent.query, StoreEvent.clientGet],
         freeSlices a' slices)
      else
        (true, some (exportSlices slices),
         [StoreEvent.query, StoreEvent.clientGet], freeSlices a' slices)

/-- C8: `Get` called with a null `value` pointer, or before `Init` (so
`client_ == nullptr`), returns `false` immediately: no `Query` or
`Get` is issued to the store and the client buffer allocator is
untouched. -/
theorem engineGet_guard (valueIsNull : Bool) (env : GetEnv)
    (a : SimpleAllocator)
    (h : valueIsNull = true ∨ env.clientInit = false) :
    (engineGet valueIsNull env a).1 = false ∧
    (engineGet valueIsNull env a).2.2.1 = [] ∧
    (engineGet valueIsNull env a).2.2.2 = a := by
  rcases h with h | h <;> simp [engineGet, h]

theorem engineGet_guard_witness :
    ((false : Bool) = true ∨
      (GetEnv.mk false true 1 [4] true).clientInit = false) ∧
    ((engineGet false (GetEnv.mk false true 1 [4] true) ⟨[], 0, 0⟩).1 = false ∧
      (engineGet false (GetEnv.mk false true 1 [4] true) ⟨[], 0, 0⟩).2.2.1 = [] ∧
      (engineGet false (GetEnv.mk false true 1 [4] true) ⟨[], 0, 0⟩).2.2.2 =
        (⟨[], 0, 0⟩ : SimpleAllocator)) :=
  ⟨Or.inr rfl,
   engineGet_guard false (GetEnv.mk false true 1 [4] true) ⟨[], 0, 0⟩
     (Or.inr rfl)⟩

/-- The operation-index range `[start_idx, end_idx)` that
`Benchmark::Run` (src/mooncake-store/bench/benchmark.cpp:85-101) hands
to worker thread `i`: `ops_per_thread = num_operations / num_threads`,
`start_idx = i * ops_per_thread`, `end_idx = start_idx +
ops_per_thread`, and the last thread's `end_idx` is extended by
`num_operations % num_threads`. -/
def threadRange (num_operations num_threads i : Nat) : Nat × Nat :=
  let ops_per_thread := num_operations / num_threads
  let start_idx := i * ops_per_thread
  let end_idx := start_idx + ops_per_thread
  if i = num_threads - 1 then
    (start_idx, end_idx + num_operations % num_threads)
  else
    (start_idx, end_idx)

lemma threadRange_fst (num_operations num_threads i : Nat) :
    (threadRange num_operations num_threads i).1 =
      i * (num_operations / num_threads) := by
  by_cases hi : i = num_threads - 1 <;> simp [threadRange, hi]

lemma threadRange_snd_mid (num_operations num_threads i : Nat)
    (hi : i ≠ num_threads - 1) :
    (threadRange num_operations num_threads i).2 =
      i * (num_operations / num_threads) + num_operations / num_threads := by
  simp [threadRange, hi]

lemma threadRange_snd_last (num_operations num_threads : Nat)
    (h : 1 ≤ num_threads) :
    (threadRange num_operations num_threads (num_threads - 1)).2 =
      num_operations := by
  have hmod := Nat.div_add_mod num_operations num_threads
  simp only [threadRange, if_pos rfl]
  obtain ⟨t, rfl⟩ : ∃ t, num_threads = t + 1 :=
    ⟨num_threads - 1, by omega⟩
  simp only [Nat.add_sub_cancel]
  calc t * (num_operations / (t + 1)) + num_operations / (t + 1) +
        num_operations % (t + 1)
      = (t + 1) * (num_operations / (t + 1)) + num_operations % (t + 1) := by
        ring_nf
    _ = num_operations := hmod

/-- C9: for `num_threads ≥ 1`, `Benchmark::Run` partitions the
operation indices `[0, num_operations)` into `num_threads` contiguous
pairwise-disjoint ranges: thread `i` starts at `i * q` with
`q = num_operations / num_threads`, each non-last range has length
`q` and abuts the next thread's start, the last thread's range is
extended by `num_operations % num_threads` and ends at
`num_operations`, and the range lengths sum to `num_operations`. -/
theorem benchmarkRun_partition (num_operations num_threads : Nat)
    (h : 1 ≤ num_threads) :
    (∀ i, (threadRange num_operations num_threads i).1 =
        i * (num_operations / num_threads)) ∧
    (∀ i, i + 1 < num_threads →
        (threadRange num_operations num_threads i).2 =
          (threadRange num_operations num_threads (i + 1)).1) ∧
    (∀ i, i + 1 < num_threads →
        (threadRange num_operations num_threads i).2 -
          (threadRange num_operations num_threads i).1 =
            num_operations / num_threads) ∧
    (∀ i j, i < j → j < num_threads →
        (threadRange num_operations num_threads i).2 ≤
          (threadRange num_operations num_threads j).1) ∧
    (threadRange num_operations num_threads 0).1 = 0 ∧
    (threadRange num_operations num_threads (num_threads - 1)).2 =
      num_operations ∧
    ((List.range num_threads).map fun i =>
        (threadRange num_operations num_threads i).2 -
          (threadRange num_operations num_threads i).1).sum =
      num_operations := by
  refine ⟨threadRange_fst num_operations num_threads, ?_, ?_, ?_, ?_, ?_, ?_⟩
  · intro i hi
    rw [threadRange_snd_mid num_operations num_threads i (by omega),
      threadRange_fst]
    ring
  · intro i hi
    rw [threadRange_snd_mid num_operations num_threads i (by omega),
      threadRange_fst]
    generalize num_operations / num_threads = q
    omega
  · intro i j hij hj
    rw [threadRange_fst]
    rcases Nat.lt_or_ge i (num_threads - 1) with hi | hi
    · rw [threadRange_snd_mid num_operations num_threads i (by omega)]
      calc i * (num_operations / num_threads) + num_operations / num_threads
          = (i + 1) * (num_operations / num_threads) := by ring
        _ ≤ j * (num_operations / num_threads) :=
            Nat.mul_le_mul_right _ (by omega)
    · omega
  · rw [threadRange_fst]
    exact Nat.zero_mul _
  · exact threadRange_snd_last num_operations num_threads h
  · have hlen : ∀ i, i < num_threads - 1 →
        (threadRange num_operations num_threads i).2 -
          (threadRange num_operations num_threads i).1 =
            num_operations / num_threads := by
      intro i hi
      rw [threadRange_snd_mid num_operations num_threads i (by omega),
        threadRange_fst]
      generalize num_operations / num_threads = q
      omega
    have hrange : List.range num_threads =
        List.range (num_threads - 1) ++ [num_threads - 1] := by
      conv_lhs => rw [show num_threads = (num_threads - 1) + 1 by omega]
      rw [List.range_succ]
    rw [hrange, List.map_append, List.sum_append]
    have hmap : ((List.range (num_threads - 1)).map fun i =>
        (threadRange num_operations num_threads i).2 -
          (threadRange num_operations num_threads i).1) =
        List.replicate (num_threads - 1) (num_operations / num_threads) := by
      refine List.eq_replicate_iff.mpr ⟨by simp, ?_⟩
      intro b hb
      obtain ⟨i, hi, rfl⟩ := List.mem_map.mp hb
      exact hlen i (List.mem_range.mp hi)
    rw [hmap, List.sum_replicate, smul_eq_mul]
    simp only [List.map_cons, List.map_nil, List.sum_cons, List.sum_nil]
    rw [threadRange_snd_last num_operations num_threads h, threadRange_fst]
    have hmod := Nat.div_add_mod num_operations num_threads
    have hmul : (num_threads - 1) * (num_operations / num_threads) +
        (num_operations / num_threads) =
        num_threads * (num_operations / num_threads) := by
      obtain ⟨t, rfl⟩ : ∃ t, num_threads = t + 1 := ⟨num_threads - 1, by omega⟩
      simp only [Nat.add_sub_cancel]
      ring
    have hle : (num_threads - 1) * (num_operations / num_threads) ≤
        num_operations := by
      calc (num_threads - 1) * (num_operations / num_threads)
          ≤ num_threads * (num_operations / num_threads) :=
            Nat.mul_le_mul_right _ (by omega)
        _ ≤ num_operations := by omega
    omega

theorem benchmarkRun_partition_witness :
    1 ≤ 3 ∧
    ((List.range 3).map fun i =>
        (threadRange 7 3 i).2 - (threadRange 7 3 i).1).sum = 7 :=
  ⟨by decide, (benchmarkRun_partition 7 3 (by decide)).2.2.2.2.2.2⟩

/-- The index `static_cast<size_t>(std::ceil((size * q) - 1))` used by
`calculate_percentiles` (src/unnamed/part_001:248-251) to pick the
`q`-th percentile from the sorted latency vector.  The `double`
arithmetic of the source is modelled exactly over `ℚ`. -/
def percentileIdx (size : Nat) (q : ℚ) : Nat :=
  (Int.ceil ((size : ℚ) * q - 1)).toNat

/-- `calculate_percentiles(latencies, p50, p90, p95, p99)`
(src/unnamed/part_001:238-252): an empty vector yields all zeros;
otherwise the vector is sorted ascending (`std::sort`, modelled by
insertion sort) and the four outputs are read at the percentile
indices for 0.50, 0.90, 0.95 and 0.99. -/
def calculate_percentiles (latencies : List ℚ) : ℚ × ℚ × ℚ × ℚ :=
  if latencies.isEmpty then (0, 0, 0, 0)
  else
    let sorted := latencies.insertionSort (· ≤ ·)
    let size := latencies.length
    (sorted.getD (percentileIdx size (50 / 100)) 0,
     sorted.getD (percentileIdx size (90 / 100)) 0,
     sorted.getD (percentileIdx size (95 / 100)) 0,
     sorted.getD (percentileIdx size (99 / 100)) 0)

lemma percentileIdx_lt (size : Nat) (q : ℚ) (hn : 1 ≤ size) (hq0 : 0 < q)
    (hq1 : q ≤ 1) :
    0 ≤ Int.ceil ((size : ℚ) * q - 1) ∧ percentileIdx size q < size := by
  have hceil : Int.ceil ((size : ℚ) * q) ≤ (size : ℤ) := by
    rw [Int.ceil_le]
    push_cast
    calc (size : ℚ) * q ≤ (size : ℚ) * 1 := by
          exact mul_le_mul_of_nonneg_left hq1 (by positivity)
      _ = (size : ℚ) := mul_one _
  have hpos : (-1 : ℚ) < (size : ℚ) * q - 1 := by
    have hsz : (1 : ℚ) ≤ (size : ℚ) := by exact_mod_cast hn
    nlinarith
  have hlb : (0 : ℤ) ≤ Int.ceil ((size : ℚ) * q - 1) := by
    by_contra hneg
    have hle : Int.ceil ((size : ℚ) * q - 1) ≤ -1 := by omega
    have := Int.ceil_le.mp hle
    push_cast at this
    linarith
  refine ⟨hlb, ?_⟩
  unfold percentileIdx
  rw [Int.ceil_sub_one]
  omega

lemma percentileIdx_mono (size : Nat) (q1 q2 : ℚ) (hq : q1 ≤ q2) :
    percentileIdx size q1 ≤ percentileIdx size q2 := by
  have hceil : Int.ceil ((size : ℚ) * q1 - 1) ≤
      Int.ceil ((size : ℚ) * q2 - 1) := by
    apply Int.ceil_mono
    have : (size : ℚ) * q1 ≤ (size : ℚ) * q2 :=
      mul_le_mul_of_nonneg_left hq (by positivity)
    linarith
  unfold percentileIdx
  omega

lemma sorted_getD_mono (l : List ℚ) (hl : l.Sorted (· ≤ ·)) (i j : Nat)
    (hij : i ≤ j) (hj : j < l.length) : l.getD i 0 ≤ l.getD j 0 := by
  have hi : i < l.length := lt_of_le_of_lt hij hj
  rw [List.getD_eq_getElem l 0 hi, List.getD_eq_getElem l 0 hj]
  have hrel := hl.rel_get_of_le
    (show (⟨i, hi⟩ : Fin l.length) ≤ ⟨j, hj⟩ from hij)
  simpa [List.get_eq_getElem] using hrel

/-- C10: on a non-empty latency vector, every index
`ceil(size * q - 1)` computed by `calculate_percentiles` for
`q ∈ {0.50, 0.90, 0.95, 0.99}` lies within `[0, size)` (non-negative
before the `size_t` cast and in range after it), and the four returned
percentiles are ordered `p50 ≤ p90 ≤ p95 ≤ p99`; on an empty vector
all four outputs are 0. -/
theorem calculate_percentiles_spec (latencies : List ℚ)
    (h : latencies ≠ []) :
    (∀ q ∈ ([50 / 100, 90 / 100, 95 / 100, 99 / 100] : List ℚ),
      0 ≤ Int.ceil ((latencies.length : ℚ) * q - 1) ∧
      percentileIdx latencies.length q < latencies.length) ∧
    ((calculate_percentiles latencies).1 ≤
        (calculate_percentiles latencies).2.1 ∧
      (calculate_percentiles latencies).2.1 ≤
        (calculate_percentiles latencies).2.2.1 ∧
      (calculate_percentiles latencies).2.2.1 ≤
        (calculate_percentiles latencies).2.2.2) ∧
    calculate_percentiles [] = (0, 0, 0, 0) := by
  have hn : 1 ≤ latencies.length := List.length_pos.mpr h
  have h50 := percentileIdx_lt latencies.length (50 / 100) hn (by norm_num)
    (by norm_num)
  have h90 := percentileIdx_lt latencies.length (90 / 100) hn (by norm_num)
    (by norm_num)
  have h95 := percentileIdx_lt latencies.length (95 / 100) hn (by norm_num)
    (by norm_num)
  have h99 := percentileIdx_lt latencies.length (99 / 100) hn (by norm_num)
    (by norm_num)
  refine ⟨?_, ?_, rfl⟩
  · intro q hq
    simp only [List.mem_cons, List.not_mem_nil, or_false] at hq
    rcases hq with rfl | rfl | rfl | rfl
    exacts [h50, h90, h95, h99]
  have hne : latencies.isEmpty = false := by
    cases latencies with
    | nil => exact absurd rfl h
    | cons x xs => rfl
  have hsorted : (latencies.insertionSort (· ≤ ·)).Sorted (· ≤ ·) :=
    List.sorted_insertionSort _ latencies
  have hslen : (latencies.insertionSort (· ≤ ·)).length = latencies.length :=
    List.length_insertionSort _ latencies
  simp only [calculate_percentiles, hne, Bool.false_eq_true, if_false]
  refine ⟨?_, ?_, ?_⟩
  · exact sorted_getD_mono _ hsorted _ _
      (percentileIdx_mono _ _ _ (by norm_num)) (hslen ▸ h90.2)
  · exact sorted_getD_mono _ hsorted _ _
      (percentileIdx_mono _ _ _ (by norm_num)) (hslen ▸ h95.2)
  · exact sorted_getD_mono _ hsorted _ _
      (percentileIdx_mono _ _ _ (by norm_num)) (hslen ▸ h99.2)

theorem calculate_percentiles_spec_witness :
    (([3, 1, 2] : List ℚ) ≠ []) ∧
    ((∀ q ∈ ([50 / 100, 90 / 100, 95 / 100, 99 / 100] : List ℚ),
        0 ≤ Int.ceil ((([3, 1, 2] : List ℚ).length : ℚ) * q - 1) ∧
        percentileIdx ([3, 1, 2] : List ℚ).length q <
          ([3, 1, 2] : List ℚ).length) ∧
     ((calculate_percentiles [3, 1, 2]).1 ≤
        (calculate_percentiles [3, 1, 2]).2.1 ∧
      (calculate_percentiles [3, 1, 2]).2.1 ≤
        (calculate_percentiles [3, 1, 2]).2.2.1 ∧
      (calculate_percentiles [3, 1, 2]).2.2.1 ≤
        (calculate_percentiles [3, 1, 2]).2.2.2) ∧
     calculate_percentiles [] = (0, 0, 0, 0)) :=
  ⟨by simp, calculate_percentiles_spec [3, 1, 2] (by simp)⟩

end Mooncake
